import Mathlib

/-!
Verification of the unison-editor integration layer (src/src-tauri/src).

Shallow embedding conventions:
* Rust `String` / `&str` values are modeled as `List Char`; raw byte streams
  (`Vec<u8>`, TCP data) are modeled as `List Nat` with each element < 256.
* Machine integers (`u16`, `usize`) are modeled as `Nat`, with explicit
  `% 65536` where 16-bit overflow matters (release-profile wrapping
  semantics; a debug build would panic at the same inputs).
* `TcpListener::bind` probing is modeled by an availability oracle
  `avail : Nat → Bool` (true = the local bind succeeds).
* `serde_json::from_str` is modeled by an abstract decoding oracle
  `decode : List Char → Option Json`; everything downstream of the decode
  is embedded from the source.
* Fallible Rust functions returning `Result<T, String>` become
  `Except (List Char) T` (or `Option` where only the error's presence
  matters).
-/

namespace UnisonEditor

/-! ## PortAllocator (src/src-tauri/src/port_utils.rs) -/

/-- The exclusive upper bound `starting_port + 100` computed in 16-bit
arithmetic, as in `(starting_port..starting_port + 100)`. -/
def portScanBound (startingPort : Nat) : Nat :=
  (startingPort + 100) % 65536

/-- The candidate ports actually iterated by the Rust range
`starting_port..starting_port + 100` over `u16`: ascending from
`starting_port` up to (exclusive) the possibly-wrapped bound; empty when the
wrapped bound is not above the start. -/
def portCandidates (startingPort : Nat) : List Nat :=
  List.range' startingPort (portScanBound startingPort - startingPort)

/-- `find_available_port`: `(starting_port..starting_port+100).find(|port| bind ok)`. -/
def find_available_port (avail : Nat → Bool) (startingPort : Nat) : Option Nat :=
  (portCandidates startingPort).find? avail

/-- The `while ports.len() < count && current < starting_port + 100` loop of
`find_available_ports`, with `k` the number of ports still wanted. -/
def findPortsLoop (avail : Nat → Bool) : List Nat → Nat → List Nat
  | _, 0 => []
  | [], _ + 1 => []
  | c :: rest, k + 1 =>
    if avail c then c :: findPortsLoop avail rest k
    else findPortsLoop avail rest (k + 1)

/-- `find_available_ports`: collect the first `count` bindable ports in the
scan range; `None` unless exactly `count` were found. -/
def find_available_ports (avail : Nat → Bool) (count : Nat) (startingPort : Nat) :
    Option (List Nat) :=
  let ports := findPortsLoop avail (portCandidates startingPort) count
  if ports.length = count then some ports else none

/-! ## FileWatcherManager (src/src-tauri/src/file_watcher.rs) -/

/-- Observable state of `FileWatcherManager`: whether `initialize` has stored
an app handle (and built the `PollWatcher`), the `watched_paths` set, and the
set of paths actually registered with the underlying `PollWatcher` via
`watcher.watch(..)`. -/
structure WatcherState where
  initialized : Bool
  watched : List (List Char)
  registered : List (List Char)
  deriving Repr, DecidableEq

/-- `FileWatcherManager::watch_file`.  Mirrors the source order: the
already-watching early return, then insertion into `watched_paths`, then the
attempt to register with the watcher, which fails when the watcher is not
initialized.  (A failure of `PollWatcher::watch` itself is not modeled; the
claim under study only exercises the uninitialized path.) -/
def watch_file (s : WatcherState) (path : List Char) :
    Except (List Char) Unit × WatcherState :=
  if path ∈ s.watched then
    (.ok (), s)
  else
    let s1 : WatcherState := { s with watched := path :: s.watched }
    if s1.initialized then
      (.ok (), { s1 with registered := path :: s1.registered })
    else
      (.error "File watcher not initialized".toList, s1)

/-! ## Generic string machinery shared by the embeddings

`splitSep` models Rust's `str::split(sep)` for a one-element separator (and,
with `lf`/`cr` instantiated, `str::lines()`); `rustTrim` models `str::trim`
restricted to the ASCII whitespace characters that can occur in the data the
claims are about. -/

/-- Split on every occurrence of `sep`, keeping empty pieces, like Rust's
`split`.  `splitSep sep [] = [[]]`, matching `"".split(sep)` yielding one
empty piece. -/
def splitSep {α : Type} [DecidableEq α] (sep : α) : List α → List (List α)
  | [] => [[]]
  | b :: rest =>
    if b = sep then [] :: splitSep sep rest
    else
      match splitSep sep rest with
      | [] => [[b]]
      | h :: t => (b :: h) :: t

/-- Remove a single trailing `cr` element, like the `\r`-stripping of
Rust's `str::lines`. -/
def stripTrail {α : Type} [DecidableEq α] (cr : α) (l : List α) : List α :=
  if l.getLast? = some cr then l.dropLast else l

/-- Rust `str::lines()`: split on `lf`, dropping one final empty piece when
the input ends with `lf`, and stripping one trailing `cr` from each line. -/
def rustLines {α : Type} [DecidableEq α] (lf cr : α) (s : List α) : List (List α) :=
  if s = [] then []
  else (splitSep lf (if s.getLast? = some lf then s.dropLast else s)).map (stripTrail cr)

/-- ASCII whitespace, standing in for Rust `char::is_whitespace` (all data in
the claims is ASCII). -/
def isRustWs (c : Char) : Bool :=
  c = ' ' || c = '\t' || c = '\n' || c = '\r' || c = '\x0b' || c = '\x0c'

/-- Rust `str::trim` (ASCII restriction): drop whitespace from both ends. -/
def rustTrim (l : List Char) : List Char :=
  ((l.dropWhile isRustWs).reverse.dropWhile isRustWs).reverse

/-- Rust `str::rfind(c)`: index of the last occurrence of `c`. -/
def rfindIdx (l : List Char) (c : Char) : Option Nat :=
  (l.reverse.findIdx? (· = c)).map (fun i => l.length - 1 - i)

/-- Rust `str::find(c)`: index of the first occurrence of `c`. -/
def ffindIdx (l : List Char) (c : Char) : Option Nat :=
  l.findIdx? (· = c)

/-! ## UCM prompt parsing (src/src-tauri/src/ucm_pty.rs, `parse_ucm_prompt`) -/

/-- `UCMContext`: project and branch detected from the UCM prompt. -/
structure UCMContext where
  project : Option (List Char)
  branch : Option (List Char)
  deriving Repr, DecidableEq

/-- One iteration of the `for line in lines.iter().rev()` loop body of
`parse_ucm_prompt`: trim the line, find the last `>`, strip a `:path` suffix,
split on the last `/`, and validate; `none` on any `continue` path. -/
def parsePromptLine (line : List Char) : Option UCMContext :=
  let trimmed := rustTrim line
  if trimmed = [] then none
  else
    match rfindIdx trimmed '>' with
    | none => none
    | some promptEnd =>
      let promptPart := trimmed.take promptEnd
      let contextPart :=
        match ffindIdx promptPart ':' with
        | some colonIdx => promptPart.take colonIdx
        | none => promptPart
      match rfindIdx contextPart '/' with
      | none => none
      | some slashIdx =>
        let project := rustTrim (contextPart.take slashIdx)
        let branch := rustTrim (contextPart.drop (slashIdx + 1))
        if project ≠ [] ∧ branch ≠ [] ∧ ' ' ∉ project ∧ ' ' ∉ branch then
          some ⟨some project, some branch⟩
        else none

/-- The reverse scan over lines with early return. -/
def promptLoop : List (List Char) → Option UCMContext
  | [] => none
  | line :: rest =>
    match parsePromptLine line with
    | some ctx => some ctx
    | none => promptLoop rest

/-- `parse_ucm_prompt`: scan the buffer's lines in reverse for the last valid
prompt. -/
def parse_ucm_prompt (output : List Char) : Option UCMContext :=
  promptLoop (rustLines '\n' '\r' output).reverse

/-! ## Lemmas about the string machinery -/

theorem splitSep_ne_nil {α : Type} [DecidableEq α] (sep : α) (l : List α) :
    splitSep sep l ≠ [] := by
  cases l with
  | nil => simp [splitSep]
  | cons b rest =>
    simp only [splitSep]
    split
    · simp
    · cases h : splitSep sep rest <;> simp

theorem splitSep_of_no_sep {α : Type} [DecidableEq α] (sep : α) (l : List α)
    (h : ∀ c ∈ l, c ≠ sep) : splitSep sep l = [l] := by
  induction l with
  | nil => rfl
  | cons b rest ih =>
    have hb : b ≠ sep := h b (by simp)
    simp only [splitSep, if_neg hb]
    rw [ih (fun c hc => h c (by simp [hc]))]

theorem splitSep_append_last {α : Type} [DecidableEq α] (sep : α) (a line : List α)
    (h : ∀ c ∈ line, c ≠ sep) :
    splitSep sep (a ++ sep :: line) = splitSep sep a ++ [line] := by
  induction a with
  | nil =>
    simp only [List.nil_append, splitSep, if_pos rfl]
    rw [splitSep_of_no_sep sep line h]
    rfl
  | cons b a ih =>
    by_cases hb : b = sep
    · subst hb
      simp [splitSep, ih]
    · obtain ⟨h0, t0, ht⟩ : ∃ h0 t0, splitSep sep a = h0 :: t0 := by
        cases hsa : splitSep sep a with
        | nil => exact absurd hsa (splitSep_ne_nil sep a)
        | cons x y => exact ⟨x, y, rfl⟩
      simp only [List.cons_append, splitSep, if_neg hb, List.append_eq]
      rw [ih, ht]
      rfl

theorem rustTrim_append_ws (l : List Char) (c : Char) (h : isRustWs c = true) :
    rustTrim (l ++ [c]) = rustTrim l := by
  unfold rustTrim
  rw [List.dropWhile_append]
  by_cases he : (l.dropWhile isRustWs).isEmpty
  · rw [if_pos he]
    simp only [List.isEmpty_iff] at he
    simp [he, List.dropWhile, h]
  · rw [if_neg he]
    rw [List.reverse_append]
    simp [List.dropWhile, h]

theorem rustTrim_stripTrail (l : List Char) :
    rustTrim (stripTrail '\r' l) = rustTrim l := by
  unfold stripTrail
  split
  · next h =>
    induction l using List.reverseRecOn with
    | nil => simp at h
    | append_singleton as a _ =>
      simp only [List.getLast?_concat, Option.some.injEq] at h
      subst h
      rw [List.dropLast_concat]
      exact (rustTrim_append_ws as '\r' (by decide)).symm
  · rfl

theorem parsePromptLine_congr {a b : List Char} (h : rustTrim a = rustTrim b) :
    parsePromptLine a = parsePromptLine b := by
  simp only [parsePromptLine, h]

theorem rustLines_append_line (buf line : List Char) (hne : line ≠ [])
    (hnl : ∀ c ∈ line, c ≠ '\n') :
    rustLines '\n' '\r' (buf ++ '\n' :: line) =
      (splitSep '\n' buf).map (stripTrail '\r') ++ [stripTrail '\r' line] := by
  unfold rustLines
  have hs : buf ++ '\n' :: line ≠ [] := by simp
  rw [if_neg hs]
  have hlast : (buf ++ '\n' :: line).getLast? = line.getLast? := by
    rw [List.getLast?_append]
    cases line with
    | nil => exact absurd rfl hne
    | cons x xs =>
      rw [List.getLast?_eq_getLast (x :: xs) (by simp)]
      rfl
  have hlastne : (buf ++ '\n' :: line).getLast? ≠ some '\n' := by
    rw [hlast]
    intro hc
    have hmem : line.getLast hne ∈ line := List.getLast_mem hne
    rw [List.getLast?_eq_getLast line hne] at hc
    exact hnl _ hmem (Option.some.injEq _ _ ▸ hc)
  rw [if_neg hlastne, splitSep_append_last '\n' buf line hnl, List.map_append]
  rfl

theorem promptLoop_eq_findSome (ls : List (List Char)) :
    promptLoop ls = ls.findSome? parsePromptLine := by
  induction ls with
  | nil => rfl
  | cons l rest ih =>
    simp only [promptLoop, List.findSome?_cons, ih]
    cases parsePromptLine l <;> rfl

/-! ## PortAllocator lemmas -/

theorem find_range'_first (avail : Nat → Bool) :
    ∀ (n start p : Nat), (List.range' start n).find? avail = some p →
      start ≤ p ∧ p < start + n ∧ avail p = true ∧
        ∀ q, start ≤ q → q < p → avail q = false := by
  intro n
  induction n with
  | zero => intro start p h; simp [List.range'] at h
  | succ m ih =>
    intro start p h
    rw [List.range'_succ] at h
    rw [List.find?_cons] at h
    cases havail : avail start with
    | true =>
      rw [havail] at h
      simp only [Option.some.injEq] at h
      subst h
      exact ⟨Nat.le_refl _, by omega, havail, fun q hq hq2 => absurd hq2 (by omega)⟩
    | false =>
      rw [havail] at h
      obtain ⟨h1, h2, h3, h4⟩ := ih (start + 1) p h
      refine ⟨by omega, by omega, h3, fun q hq hq2 => ?_⟩
      rcases Nat.eq_or_lt_of_le hq with heq | hlt
      · exact heq ▸ havail
      · exact h4 q hlt hq2

theorem portCandidates_no_overflow (startingPort : Nat) (h : startingPort + 100 ≤ 65535) :
    portCandidates startingPort = List.range' startingPort 100 := by
  unfold portCandidates portScanBound
  rw [Nat.mod_eq_of_lt (by omega)]
  congr 1
  omega

theorem mem_portCandidates {startingPort q : Nat} (h : startingPort + 100 ≤ 65535) :
    q ∈ portCandidates startingPort ↔ startingPort ≤ q ∧ q < startingPort + 100 := by
  rw [portCandidates_no_overflow startingPort h, List.mem_range']
  constructor
  · rintro ⟨i, hi, rfl⟩
    omega
  · intro ⟨h1, h2⟩
    exact ⟨q - startingPort, by omega, by omega⟩

/-- C9: `find_available_port` and `find_available_ports` compute the exclusive
range bound as `starting_port + 100` in 16-bit arithmetic.  For every
`starting_port ≤ 65435` the addition does not overflow and both functions scan
exactly the 100 candidate ports `start..start+100`; for `starting_port >
65435` the bound computation overflows `u16` (the wrapped bound falls below
the mathematical `starting_port + 100`), so the totality precondition is
`starting_port + 100 ≤ 65535`. -/
theorem port_scan_bound_u16 (startingPort : Nat) (h : startingPort ≤ 65535) :
    (startingPort ≤ 65435 →
       startingPort + 100 ≤ 65535 ∧
       portScanBound startingPort = startingPort + 100 ∧
       (portCandidates startingPort).length = 100 ∧
       (∀ avail, find_available_port avail startingPort =
          (List.range' startingPort 100).find? avail) ∧
       (∀ avail count, find_available_ports avail count startingPort =
          (if (findPortsLoop avail (List.range' startingPort 100) count).length = count
           then some (findPortsLoop avail (List.range' startingPort 100) count)
           else none))) ∧
    (65435 < startingPort →
       65535 < startingPort + 100 ∧
       portScanBound startingPort < startingPort + 100 ∧
       portCandidates startingPort = []) := by
  constructor
  · intro h1
    have hb := portCandidates_no_overflow startingPort (by omega)
    refine ⟨by omega, ?_, ?_, ?_, ?_⟩
    · unfold portScanBound
      omega
    · rw [hb, List.length_range']
    · intro avail
      unfold find_available_port
      rw [hb]
    · intro avail count
      unfold find_available_ports
      rw [hb]
  · intro h2
    refine ⟨by omega, ?_, ?_⟩
    · unfold portScanBound
      omega
    · have hz : portScanBound startingPort - startingPort = 0 := by
        unfold portScanBound
        omega
      unfold portCandidates
      rw [hz]
      rfl

/-- Witness for C9 at `starting_port = 5858` (the port the session manager
actually starts from). -/
theorem port_scan_bound_u16_witness :
    portScanBound 5858 = 5958 ∧ (portCandidates 5858).length = 100 := by
  have H := (port_scan_bound_u16 5858 (by decide)).1 (by decide)
  exact ⟨H.2.1, H.2.2.1⟩

/-- C4 counterexample: at `starting_port = 65436` the `u16` bound computation
wraps to `0`, the scanned range is empty, and `find_available_port` returns
`none` even though every bind (here: all of them) would succeed — the claim's
"for every starting port ... returns the first port on which a local bind
succeeds" fails. -/
theorem find_available_port_overflow_counterexample :
    find_available_port (fun _ => true) 65436 = none ∧
    (fun _ : Nat => true) 65436 = true := by
  constructor
  · rfl
  · rfl

/-- C4 amended: for every `starting_port` with `starting_port + 100 ≤ 65535`,
`find_available_port` probes the 100 candidates in ascending order and returns
the first available one; `none` exactly when all 100 are occupied; never a
port outside the range nor a non-first free candidate. -/
theorem find_available_port_first_free (avail : Nat → Bool) (startingPort : Nat)
    (h : startingPort + 100 ≤ 65535) :
    (∀ p, find_available_port avail startingPort = some p →
       startingPort ≤ p ∧ p < startingPort + 100 ∧ avail p = true ∧
         ∀ q, startingPort ≤ q → q < p → avail q = false) ∧
    ((∀ q, startingPort ≤ q → q < startingPort + 100 → avail q = false) →
       find_available_port avail startingPort = none) ∧
    ((∃ q, startingPort ≤ q ∧ q < startingPort + 100 ∧ avail q = true) →
       (find_available_port avail startingPort).isSome) := by
  have hb := portCandidates_no_overflow startingPort h
  refine ⟨?_, ?_, ?_⟩
  · intro p hp
    unfold find_available_port at hp
    rw [hb] at hp
    exact find_range'_first avail 100 startingPort p hp
  · intro hall
    unfold find_available_port
    rw [hb, List.find?_eq_none]
    intro x hx hpx
    rw [List.mem_range'] at hx
    obtain ⟨i, hi, rfl⟩ := hx
    rw [hall _ (by omega) (by omega)] at hpx
    exact Bool.false_ne_true hpx
  · rintro ⟨q, hq1, hq2, hq3⟩
    unfold find_available_port
    rw [hb, List.find?_isSome]
    exact ⟨q, by rw [List.mem_range']; exact ⟨q - startingPort, by omega, by omega⟩, hq3⟩

/-- Witness for the amended C4: starting at 5858 with ports below 5860 busy,
the first free port 5860 is in range and available. -/
theorem find_available_port_first_free_witness :
    (5858 : Nat) ≤ 5860 ∧ 5860 < 5858 + 100 ∧
    (fun p => decide (5860 ≤ p)) 5860 = true := by
  have H := (find_available_port_first_free (fun p => decide (5860 ≤ p)) 5858
    (by decide)).1 5860 (by decide)
  exact ⟨H.1, H.2.1, H.2.2.1⟩

/-- C10: calling `watch_file` while the watcher is uninitialized returns an
error but has already inserted the path into `watched_paths`; no watch is
registered, and a second call for the same path succeeds immediately via the
already-watching check, leaving the state unchanged. -/
theorem watch_file_uninitialized_nonatomic (s : WatcherState) (path : List Char)
    (hinit : s.initialized = false) (hmem : path ∉ s.watched) :
    (watch_file s path).1 = .error "File watcher not initialized".toList ∧
    (watch_file s path).2.watched = path :: s.watched ∧
    (watch_file s path).2.registered = s.registered ∧
    watch_file (watch_file s path).2 path = (.ok (), (watch_file s path).2) := by
  obtain ⟨init, w, reg⟩ := s
  have hinit2 : init = false := hinit
  subst hinit2
  have hmem2 : path ∉ w := hmem
  simp [watch_file, hmem2]

/-- Witness for C10 on the empty uninitialized manager and the path "a.u". -/
theorem watch_file_uninitialized_nonatomic_witness :
    (watch_file ⟨false, [], []⟩ "a.u".toList).1 =
      .error "File watcher not initialized".toList ∧
    (watch_file ⟨false, [], []⟩ "a.u".toList).2.watched = "a.u".toList :: [] ∧
    (watch_file ⟨false, [], []⟩ "a.u".toList).2.registered = [] ∧
    watch_file (watch_file ⟨false, [], []⟩ "a.u".toList).2 "a.u".toList =
      (.ok (), (watch_file ⟨false, [], []⟩ "a.u".toList).2) :=
  watch_file_uninitialized_nonatomic ⟨false, [], []⟩ "a.u".toList rfl (by decide)

/-- C2: `parse_ucm_prompt` maps `"tour/main> "` to `{tour, main}`, strips the
`:path` suffix in `"myproject/feature:lib.utils> "`, returns `none` on
`"no prompt here"`, and on any multi-line buffer the result is the first
valid parse when scanning lines in reverse (the last matching line wins): the
loop equals `findSome?` over the reversed lines, and appending a parseable
last line forces its context regardless of the earlier buffer content. -/
theorem parse_ucm_prompt_spec :
    parse_ucm_prompt "tour/main> ".toList =
      some ⟨some "tour".toList, some "main".toList⟩ ∧
    parse_ucm_prompt "myproject/feature:lib.utils> ".toList =
      some ⟨some "myproject".toList, some "feature".toList⟩ ∧
    parse_ucm_prompt "no prompt here".toList = none ∧
    (∀ output, parse_ucm_prompt output =
      ((rustLines '\n' '\r' output).reverse).findSome? parsePromptLine) ∧
    (∀ buf line ctx, line ≠ [] → (∀ c ∈ line, c ≠ '\n') →
      parsePromptLine line = some ctx →
      parse_ucm_prompt (buf ++ '\n' :: line) = some ctx) := by
  refine ⟨by decide, by decide, by decide, fun output => promptLoop_eq_findSome _, ?_⟩
  intro buf line ctx hne hnl hparse
  unfold parse_ucm_prompt
  rw [rustLines_append_line buf line hne hnl, List.reverse_append]
  have hline : parsePromptLine (stripTrail '\r' line) = some ctx := by
    rw [parsePromptLine_congr (rustTrim_stripTrail line)]
    exact hparse
  simp [promptLoop, hline]

/-- Witness for C2's multi-line clause: two junk lines followed by a prompt
line still parse to that prompt's context. -/
theorem parse_ucm_prompt_spec_witness :
    parse_ucm_prompt ("echo\nnoise".toList ++ '\n' :: "tour/main> ".toList) =
      some ⟨some "tour".toList, some "main".toList⟩ :=
  parse_ucm_prompt_spec.2.2.2.2 "echo\nnoise".toList "tour/main> ".toList
    ⟨some "tour".toList, some "main".toList⟩ (by decide) (by decide) (by decide)

/-- C3 counterexample: the validation only rejects the space character `' '`,
not all whitespace: a project part containing a tab is accepted, so
"contains any whitespace character (space, tab, or other) → no context"
fails. -/
theorem parse_ucm_prompt_tab_counterexample :
    parse_ucm_prompt "a\tb/main> ".toList =
      some ⟨some "a\tb".toList, some "main".toList⟩ ∧
    '\t' ∈ "a\tb".toList := by
  exact ⟨by decide, by decide⟩

theorem parsePromptLine_no_space (line p b : List Char)
    (h : parsePromptLine line = some ⟨some p, some b⟩) :
    p ≠ [] ∧ b ≠ [] ∧ ' ' ∉ p ∧ ' ' ∉ b := by
  simp only [parsePromptLine] at h
  split at h
  · exact absurd h (by simp)
  · split at h
    · exact absurd h (by simp)
    · split at h
      · exact absurd h (by simp)
      · split at h
        · next hcond =>
          simp only [Option.some.injEq, UCMContext.mk.injEq] at h
          obtain ⟨hp, hb⟩ := h
          subst hp
          subst hb
          exact hcond
        · exact absurd h (by simp)

theorem promptLoop_no_space (ls : List (List Char)) (p b : List Char)
    (h : promptLoop ls = some ⟨some p, some b⟩) :
    p ≠ [] ∧ b ≠ [] ∧ ' ' ∉ p ∧ ' ' ∉ b := by
  induction ls with
  | nil => exact absurd h (by simp [promptLoop])
  | cons l rest ih =>
    simp only [promptLoop] at h
    cases hl : parsePromptLine l with
    | none =>
      rw [hl] at h
      exact ih h
    | some ctx =>
      rw [hl] at h
      simp only [Option.some.injEq] at h
      subst h
      exact parsePromptLine_no_space l p b hl

/-- C3 amended: a project/branch pair is accepted only if both parts are
non-empty and contain no space character `' '` (other whitespace, e.g. a tab,
is not rejected; leading/trailing whitespace is trimmed away before the
check). -/
theorem parse_ucm_prompt_no_space (output p b : List Char)
    (h : parse_ucm_prompt output = some ⟨some p, some b⟩) :
    p ≠ [] ∧ b ≠ [] ∧ ' ' ∉ p ∧ ' ' ∉ b := by
  unfold parse_ucm_prompt at h
  exact promptLoop_no_space _ p b h

/-- Witness for the amended C3 on the prompt `"tour/main> "`. -/
theorem parse_ucm_prompt_no_space_witness :
    "tour".toList ≠ [] ∧ "main".toList ≠ [] ∧
    ' ' ∉ "tour".toList ∧ ' ' ∉ "main".toList :=
  parse_ucm_prompt_no_space "tour/main> ".toList "tour".toList "main".toList (by decide)

/-! ## LSP proxy (src/src-tauri/src/lsp_proxy.rs)

Byte streams are `List Nat` (each element a byte value).  `String::from_utf8`
is modeled by a faithful UTF-8 validity check (RFC 3629 table); the decoded
string's bytes are the input bytes, so bodies stay byte lists. -/

/-- UTF-8 continuation byte `0x80..=0xBF`. -/
def isContByte (b : Nat) : Bool := 128 ≤ b && b ≤ 191

/-- Validity of a byte sequence as UTF-8, as checked by
`String::from_utf8` (overlongs and surrogates rejected). -/
def isValidUtf8 : List Nat → Bool
  | [] => true
  | b :: rest =>
    if b ≤ 127 then isValidUtf8 rest
    else
      match rest with
      | [] => false
      | c1 :: r1 =>
        if 194 ≤ b && b ≤ 223 then isContByte c1 && isValidUtf8 r1
        else
          match r1 with
          | [] => false
          | c2 :: r2 =>
            if b = 224 then (160 ≤ c1 && c1 ≤ 191) && isContByte c2 && isValidUtf8 r2
            else if (225 ≤ b && b ≤ 236) || b = 238 || b = 239 then
              isContByte c1 && isContByte c2 && isValidUtf8 r2
            else if b = 237 then (128 ≤ c1 && c1 ≤ 159) && isContByte c2 && isValidUtf8 r2
            else
              match r2 with
              | [] => false
              | c3 :: r3 =>
                if b = 240 then
                  (144 ≤ c1 && c1 ≤ 191) && isContByte c2 && isContByte c3 && isValidUtf8 r3
                else if 241 ≤ b && b ≤ 243 then
                  isContByte c1 && isContByte c2 && isContByte c3 && isValidUtf8 r3
                else if b = 244 then
                  (128 ≤ c1 && c1 ≤ 143) && isContByte c2 && isContByte c3 && isValidUtf8 r3
                else false

/-- ASCII bytes of a (pure-ASCII) string literal. -/
def asciiOf (s : String) : List Nat := s.toList.map Char.toNat

/-- Decimal digit bytes of `n`, as produced by `format!("{}", n)`. -/
def natDigits (n : Nat) : List Nat :=
  if n < 10 then [48 + n]
  else natDigits (n / 10) ++ [48 + n % 10]
decreasing_by exact Nat.div_lt_self (by omega) (by omega)

/-- The header written by `forward_ws_to_lsp`:
`"Content-Length: {L}\r\n\r\n"`. -/
def contentLengthHeader (len : Nat) : List Nat :=
  asciiOf "Content-Length: " ++ natDigits len ++ [13, 10, 13, 10]

/-- The bytes written upstream for one client text message:
`format!("Content-Length: {}\r\n\r\n{}", text.len(), text)`. -/
def encodeMsg (body : List Nat) : List Nat :=
  contentLengthHeader body.length ++ body

/-- A WebSocket read result, as matched by `forward_ws_to_lsp`. -/
inductive WsEvent where
  | text (body : List Nat)
  | binary (bytes : List Nat)
  | ping
  | pong
  | close
  | wsError
  deriving Repr, DecidableEq

/-- `forward_ws_to_lsp`: each `Text` message is framed and written upstream;
`Close` and read errors end the loop; binary/ping/pong are ignored.  The
result is the concatenation of all bytes written to the LSP socket. -/
def forward_ws_to_lsp : List WsEvent → List Nat
  | [] => []
  | .text body :: rest => encodeMsg body ++ forward_ws_to_lsp rest
  | .binary _ :: rest => forward_ws_to_lsp rest
  | .ping :: rest => forward_ws_to_lsp rest
  | .pong :: rest => forward_ws_to_lsp rest
  | .close :: _ => []
  | .wsError :: _ => []

/-- The header-scanning loop of `read_lsp_message`: bytes are pushed one at a
time; after each push, if the last four bytes are `\r\n\r\n` the headers are
complete.  `racc` holds the bytes read so far in reverse (mirroring
`headers.iter().rev().take(4)`).  `none` models `read_exact` failing at end
of stream. -/
def scanHeaders (racc : List Nat) : List Nat → Option (List Nat × List Nat)
  | [] => none
  | b :: rest =>
    if (b :: racc).length ≥ 4 ∧ (b :: racc).take 4 = [10, 13, 10, 13] then
      some ((b :: racc).reverse, rest)
    else scanHeaders (b :: racc) rest

/-- Rust byte-level whitespace for `str::trim` on header values (ASCII). -/
def isWsByte (b : Nat) : Bool := b = 9 || b = 10 || b = 11 || b = 12 || b = 13 || b = 32

/-- `str::trim` on bytes. -/
def rustTrimBytes (l : List Nat) : List Nat :=
  ((l.dropWhile isWsByte).reverse.dropWhile isWsByte).reverse

/-- The digit-accumulating core of `usize::from_str`. -/
def parseDigitsGo (acc : Nat) : List Nat → Option Nat
  | [] => some acc
  | b :: bs =>
    if 48 ≤ b ∧ b ≤ 57 then parseDigitsGo (acc * 10 + (b - 48)) bs
    else none

/-- `str::parse::<usize>()`: optional leading `+`, then one or more decimal
digits.  (Values are unbounded `Nat`; a `usize` overflow failure is not
modeled — irrelevant at the lengths under study.) -/
def parseUsize : List Nat → Option Nat
  | [] => none
  | b :: rest =>
    if b = 43 then (if rest = [] then none else parseDigitsGo 0 rest)
    else parseDigitsGo 0 (b :: rest)

/-- Content-Length extraction of `read_lsp_message`: find the header line
starting with `"Content-Length:"`, take what follows the first `:`, trim and
parse it. -/
def parseContentLength (headers : List Nat) : Option Nat :=
  ((rustLines 10 13 headers).find? (fun line => (asciiOf "Content-Length:").isPrefixOf line)).bind
    (fun line => ((splitSep 58 line).get? 1).bind
      (fun s => parseUsize (rustTrimBytes s)))

/-- `read_lsp_message`: scan headers up to `\r\n\r\n`, parse Content-Length,
read exactly that many body bytes (error if the stream cannot supply them),
and require the body to be valid UTF-8 (`String::from_utf8`).  Returns the
body bytes and the unconsumed remainder of the stream. -/
def read_lsp_message (stream : List Nat) : Option (List Nat × List Nat) :=
  match scanHeaders [] stream with
  | none => none
  | some (headers, rest) =>
    match parseContentLength headers with
    | none => none
    | some len =>
      if len ≤ rest.length then
        if isValidUtf8 (rest.take len) then some (rest.take len, rest.drop len)
        else none
      else none

theorem scanHeaders_consumes :
    ∀ (stream : List Nat) (racc hdr rest : List Nat),
      scanHeaders racc stream = some (hdr, rest) → rest.length < stream.length := by
  intro stream
  induction stream with
  | nil => intro racc hdr rest h; exact absurd h (by simp [scanHeaders])
  | cons b tail ih =>
    intro racc hdr rest h
    simp only [scanHeaders] at h
    split at h
    · simp only [Option.some.injEq, Prod.mk.injEq] at h
      obtain ⟨-, h2⟩ := h
      subst h2
      simp
    · have := ih (b :: racc) hdr rest h
      simp only [List.length_cons]
      omega

theorem read_lsp_message_consumes {stream body rest : List Nat}
    (h : read_lsp_message stream = some (body, rest)) : rest.length < stream.length := by
  unfold read_lsp_message at h
  split at h
  · exact absurd h (by simp)
  · next hdr rest0 hscan =>
    split at h
    · exact absurd h (by simp)
    · next len hlen =>
      split at h
      · split at h
        · simp only [Option.some.injEq, Prod.mk.injEq] at h
          obtain ⟨-, h2⟩ := h
          subst h2
          have h3 := scanHeaders_consumes stream [] hdr rest0 hscan
          have h4 : (rest0.drop len).length ≤ rest0.length := by
            rw [List.length_drop]
            omega
          omega
        · exact absurd h (by simp)
      · exact absurd h (by simp)

/-- `forward_lsp_to_ws`: repeatedly read one framed message and forward its
body as one WebSocket text message; any read error (including EOF and framing
errors) breaks the loop.  The result is the sequence of messages sent
downstream. -/
def forward_lsp_to_ws (stream : List Nat) : List (List Nat) :=
  match h : read_lsp_message stream with
  | none => []
  | some (body, rest) => body :: forward_lsp_to_ws rest
termination_by stream.length
decreasing_by exact read_lsp_message_consumes h

/-- Two concurrent relay connections: each direction is a pure function of
its own upstream stream (no shared mutable state across connections). -/
def relayConnections (s1 s2 : List Nat) : List (List Nat) × List (List Nat) :=
  (forward_lsp_to_ws s1, forward_lsp_to_ws s2)

/-! ## LSP framing lemmas -/

theorem forward_lsp_to_ws_of_read_none {s : List Nat} (h : read_lsp_message s = none) :
    forward_lsp_to_ws s = [] := by
  rw [forward_lsp_to_ws]
  split
  · rfl
  · next body rest hsome => rw [h] at hsome; exact absurd hsome (by simp)

theorem forward_lsp_to_ws_of_read_some {s body rest : List Nat}
    (h : read_lsp_message s = some (body, rest)) :
    forward_lsp_to_ws s = body :: forward_lsp_to_ws rest := by
  rw [forward_lsp_to_ws]
  split
  · next hnone => rw [h] at hnone; exact absurd hnone (by simp)
  · next b r hsome =>
    rw [h] at hsome
    simp only [Option.some.injEq, Prod.mk.injEq] at hsome
    rw [hsome.1, hsome.2]

theorem natDigits_ne_nil (n : Nat) : natDigits n ≠ [] := by
  rw [natDigits]
  split
  · simp
  · simp

theorem natDigits_mem_digit (n : Nat) : ∀ b ∈ natDigits n, 48 ≤ b ∧ b ≤ 57 := by
  induction n using Nat.strong_induction_on with
  | _ n ih =>
    rw [natDigits]
    split
    · next h =>
      intro b hb
      simp only [List.mem_singleton] at hb
      omega
    · next h =>
      intro b hb
      rw [List.mem_append] at hb
      rcases hb with hb | hb
      · exact ih (n / 10) (Nat.div_lt_self (by omega) (by omega)) b hb
      · simp only [List.mem_singleton] at hb
        have := Nat.mod_lt n (y := 10) (by omega)
        omega

theorem parseDigitsGo_append (acc : Nat) (xs ys : List Nat) :
    parseDigitsGo acc (xs ++ ys) =
      (parseDigitsGo acc xs).bind (fun a => parseDigitsGo a ys) := by
  induction xs generalizing acc with
  | nil => rfl
  | cons b bs ih =>
    simp only [List.cons_append, parseDigitsGo]
    split
    · exact ih _
    · rfl

theorem parseDigitsGo_natDigits (n : Nat) :
    ∀ acc, parseDigitsGo acc (natDigits n) =
      some (acc * 10 ^ (natDigits n).length + n) := by
  induction n using Nat.strong_induction_on with
  | _ n ih =>
    intro acc
    rw [natDigits]
    split
    · next h =>
      simp only [parseDigitsGo, if_pos (by omega : 48 ≤ 48 + n ∧ 48 + n ≤ 57)]
      simp only [List.length_singleton]
      congr 1
      omega
    · next h =>
      rw [parseDigitsGo_append]
      rw [ih (n / 10) (Nat.div_lt_self (by omega) (by omega)) acc]
      have h10 := Nat.mod_lt n (y := 10) (by omega)
      have hbind : ∀ (A : Nat) (f : Nat → Option Nat), (some A).bind f = f A :=
        fun _ _ => rfl
      rw [hbind]
      simp only [parseDigitsGo,
        if_pos (by omega : 48 ≤ 48 + n % 10 ∧ 48 + n % 10 ≤ 57)]
      congr 1
      have hmod : 48 + n % 10 - 48 = n % 10 := by omega
      rw [hmod]
      simp only [List.length_append, List.length_cons, List.length_nil]
      rw [Nat.pow_succ]
      have key : ∀ k : Nat,
          (acc * k + n / 10) * 10 + n % 10 = acc * (k * 10) + (n / 10 * 10 + n % 10) := by
        intro k
        ring
      rw [key]
      omega

theorem parseUsize_natDigits (n : Nat) : parseUsize (natDigits n) = some n := by
  obtain ⟨d, ds, hds⟩ : ∃ d ds, natDigits n = d :: ds := by
    cases h : natDigits n with
    | nil => exact absurd h (natDigits_ne_nil n)
    | cons d ds => exact ⟨d, ds, rfl⟩
  have hd : 48 ≤ d ∧ d ≤ 57 := natDigits_mem_digit n d (by rw [hds]; simp)
  rw [hds]
  simp only [parseUsize, if_neg (by omega : ¬d = 43)]
  rw [← hds, parseDigitsGo_natDigits n 0]
  simp

theorem isPrefixOf_append_self (l t : List Nat) : l.isPrefixOf (l ++ t) = true := by
  induction l with
  | nil => cases t <;> rfl
  | cons b bs ih => simp [List.isPrefixOf, ih]

theorem digit_not_ws {b : Nat} (h : 48 ≤ b ∧ b ≤ 57) : isWsByte b = false := by
  simp only [isWsByte, Bool.or_eq_false_iff, decide_eq_false_iff_not]
  omega

theorem dropWhile_ws_digits {l : List Nat} (h : ∀ b ∈ l, 48 ≤ b ∧ b ≤ 57) :
    l.dropWhile isWsByte = l := by
  cases l with
  | nil => rfl
  | cons b bs =>
    rw [List.dropWhile_cons, digit_not_ws (h b (by simp))]
    simp

theorem rustTrimBytes_space_digits {l : List Nat} (h : ∀ b ∈ l, 48 ≤ b ∧ b ≤ 57) :
    rustTrimBytes (32 :: l) = l := by
  unfold rustTrimBytes
  rw [List.dropWhile_cons]
  simp only [show isWsByte 32 = true from rfl, if_true]
  rw [dropWhile_ws_digits h,
    dropWhile_ws_digits (fun b hb => h b (List.mem_reverse.mp hb)),
    List.reverse_reverse]

theorem scanHeaders_skip (xs : List Nat) :
    ∀ (racc rest : List Nat), (∀ b ∈ xs, b ≠ 10) →
      scanHeaders racc (xs ++ rest) = scanHeaders (xs.reverse ++ racc) rest := by
  induction xs with
  | nil => intro racc rest _; rfl
  | cons b bs ih =>
    intro racc rest h
    have hb : b ≠ 10 := h b (by simp)
    simp only [List.cons_append, scanHeaders]
    rw [if_neg (by rintro ⟨-, hc⟩; simp at hc; omega)]
    rw [List.append_eq, ih (b :: racc) rest (fun c hc => h c (by simp [hc]))]
    simp [List.append_assoc]

theorem scanHeaders_terminator (x : Nat) (rs rest : List Nat) (hx : x ≠ 10) :
    scanHeaders (x :: rs) (13 :: 10 :: 13 :: 10 :: rest) =
      some ((x :: rs).reverse ++ [13, 10, 13, 10], rest) := by
  have e1 : scanHeaders (x :: rs) (13 :: 10 :: 13 :: 10 :: rest) =
      scanHeaders (13 :: x :: rs) (10 :: 13 :: 10 :: rest) := by
    simp only [scanHeaders]
    rw [if_neg (by rintro ⟨-, hc⟩; simp at hc)]
  have e2 : scanHeaders (13 :: x :: rs) (10 :: 13 :: 10 :: rest) =
      scanHeaders (10 :: 13 :: x :: rs) (13 :: 10 :: rest) := by
    simp only [scanHeaders]
    rw [if_neg (by rintro ⟨-, hc⟩; simp at hc; omega)]
  have e3 : scanHeaders (10 :: 13 :: x :: rs) (13 :: 10 :: rest) =
      scanHeaders (13 :: 10 :: 13 :: x :: rs) (10 :: rest) := by
    simp only [scanHeaders]
    rw [if_neg (by rintro ⟨-, hc⟩; simp at hc)]
  have e4 : scanHeaders (13 :: 10 :: 13 :: x :: rs) (10 :: rest) =
      some ((10 :: 13 :: 10 :: 13 :: x :: rs).reverse, rest) := by
    simp only [scanHeaders]
    rw [if_pos (by constructor <;> simp)]
  rw [e1, e2, e3, e4]
  simp

/-- Scanning the stream `header-body ++ rest` for an encoded message finds
exactly the header bytes. -/
theorem scanHeaders_encodeMsg (len : Nat) (tail : List Nat) :
    scanHeaders [] (contentLengthHeader len ++ tail) =
      some (contentLengthHeader len, tail) := by
  obtain ⟨ds, d, hds⟩ : ∃ ds d, natDigits len = ds ++ [d] := by
    rcases List.eq_nil_or_concat (natDigits len) with h | ⟨ds, d, h⟩
    · exact absurd h (natDigits_ne_nil len)
    · exact ⟨ds, d, by simpa [List.concat_eq_append] using h⟩
  have hd : 48 ≤ d ∧ d ≤ 57 := natDigits_mem_digit len d (by rw [hds]; simp)
  have hno10 : ∀ b ∈ asciiOf "Content-Length: " ++ natDigits len, b ≠ 10 := by
    intro b hb
    rw [List.mem_append] at hb
    rcases hb with hb | hb
    · revert hb
      revert b
      decide
    · have := natDigits_mem_digit len b hb
      omega
  have hsplit : contentLengthHeader len ++ tail =
      (asciiOf "Content-Length: " ++ natDigits len) ++ (13 :: 10 :: 13 :: 10 :: tail) := by
    unfold contentLengthHeader
    simp [List.append_assoc]
  rw [hsplit, scanHeaders_skip _ [] _ hno10, List.append_nil]
  have hrev : (asciiOf "Content-Length: " ++ natDigits len).reverse =
      d :: (ds.reverse ++ (asciiOf "Content-Length: ").reverse) := by
    rw [hds]
    simp [List.reverse_append]
  rw [hrev, scanHeaders_terminator d _ _ (by omega)]
  rw [← hrev]
  rw [List.reverse_reverse]
  unfold contentLengthHeader
  simp [List.append_assoc]

/-- The Content-Length written by the relay parses back to the same value. -/
theorem parseContentLength_header (len : Nat) :
    parseContentLength (contentLengthHeader len) = some len := by
  have hdig := natDigits_mem_digit len
  -- lines(): the header ends with \n, so the final empty piece is dropped
  have hlines : rustLines 10 13 (contentLengthHeader len) =
      [asciiOf "Content-Length: " ++ natDigits len, []] := by
    unfold rustLines contentLengthHeader
    rw [if_neg (by simp [asciiOf])]
    have hlast : ((asciiOf "Content-Length: " ++ natDigits len ++ [13, 10, 13, 10]) :
        List Nat).getLast? = some 10 := by
      rw [show (asciiOf "Content-Length: " ++ natDigits len ++ [13, 10, 13, 10] : List Nat) =
        (asciiOf "Content-Length: " ++ natDigits len ++ [13, 10, 13]) ++ [10] by
          simp [List.append_assoc]]
      rw [List.getLast?_concat]
    rw [if_pos hlast]
    rw [show (asciiOf "Content-Length: " ++ natDigits len ++ [13, 10, 13, 10] : List Nat) =
      (asciiOf "Content-Length: " ++ natDigits len ++ [13, 10, 13]) ++ [10] by
        simp [List.append_assoc]]
    rw [List.dropLast_concat]
    have hnosep : ∀ b ∈ (asciiOf "Content-Length: " ++ natDigits len ++ [13] : List Nat),
        b ≠ 10 := by
      intro b hb
      simp only [List.mem_append, List.mem_singleton] at hb
      rcases hb with (hb | hb) | hb
      · revert hb; revert b; decide
      · have := hdig b hb; omega
      · omega
    rw [show (asciiOf "Content-Length: " ++ natDigits len ++ [13, 10, 13] : List Nat) =
      (asciiOf "Content-Length: " ++ natDigits len ++ [13]) ++ 10 :: [13] by
        simp [List.append_assoc]]
    rw [splitSep_append_last 10 _ [13] (by decide)]
    rw [splitSep_of_no_sep 10 _ hnosep]
    simp only [List.singleton_append, List.map_cons, List.map_nil]
    have hstrip1 : stripTrail 13 (asciiOf "Content-Length: " ++ natDigits len ++ [13]) =
        asciiOf "Content-Length: " ++ natDigits len := by
      unfold stripTrail
      rw [show (asciiOf "Content-Length: " ++ natDigits len ++ [13] : List Nat) =
        (asciiOf "Content-Length: " ++ natDigits len) ++ [13] by simp [List.append_assoc]]
      rw [List.getLast?_concat]
      rw [if_pos rfl, List.dropLast_concat]
    have hstrip2 : stripTrail 13 ([13] : List Nat) = [] := by decide
    rw [hstrip1, hstrip2]
  unfold parseContentLength
  rw [hlines]
  have hpref : (asciiOf "Content-Length:").isPrefixOf
      (asciiOf "Content-Length: " ++ natDigits len) = true := by
    rw [show asciiOf "Content-Length: " = asciiOf "Content-Length:" ++ [32] from rfl]
    rw [List.append_assoc]
    exact isPrefixOf_append_self _ _
  rw [List.find?_cons, hpref]
  have hsplitc : splitSep 58 (asciiOf "Content-Length: " ++ natDigits len) =
      [asciiOf "Content-Length", 32 :: natDigits len] := by
    rw [show asciiOf "Content-Length: " = asciiOf "Content-Length" ++ 58 :: [32] from rfl]
    rw [List.append_assoc]
    rw [show ((58 :: [32] : List Nat) ++ natDigits len) = 58 :: (32 :: natDigits len) from rfl]
    rw [splitSep_append_last 58 _ _ (by
      intro c hc
      simp only [List.mem_cons] at hc
      rcases hc with hc | hc
      · omega
      · have := hdig c hc; omega)]
    rw [splitSep_of_no_sep 58 _ (by intro c hc; revert hc; revert c; decide)]
    rfl
  simp only [Option.some_bind, hsplitc]
  rw [show ([asciiOf "Content-Length", 32 :: natDigits len].get? 1) =
    some (32 :: natDigits len) from rfl]
  simp only [Option.some_bind]
  rw [rustTrimBytes_space_digits hdig]
  exact parseUsize_natDigits len

/-- Reading back one encoded message consumes exactly the header and the
declared number of body bytes. -/
theorem read_encodeMsg (body rest : List Nat) (hutf : isValidUtf8 body = true) :
    read_lsp_message (encodeMsg body ++ rest) = some (body, rest) := by
  have hscan : scanHeaders [] (encodeMsg body ++ rest) =
      some (contentLengthHeader body.length, body ++ rest) := by
    unfold encodeMsg
    rw [List.append_assoc]
    exact scanHeaders_encodeMsg body.length (body ++ rest)
  simp only [read_lsp_message, hscan, parseContentLength_header]
  rw [if_pos (by rw [List.length_append]; omega)]
  rw [List.take_left, List.drop_left, hutf]
  simp

theorem forward_ws_map_text (msgs : List (List Nat)) :
    forward_ws_to_lsp (msgs.map WsEvent.text) = (msgs.map encodeMsg).flatten := by
  induction msgs with
  | nil => rfl
  | cons m ms ih => simp [forward_ws_to_lsp, ih]

theorem forward_encode_flatten (msgs : List (List Nat))
    (h : ∀ m ∈ msgs, isValidUtf8 m = true) :
    forward_lsp_to_ws ((msgs.map encodeMsg).flatten) = msgs := by
  induction msgs with
  | nil =>
    exact forward_lsp_to_ws_of_read_none (by rfl)
  | cons m ms ih =>
    simp only [List.map_cons, List.flatten_cons]
    rw [forward_lsp_to_ws_of_read_some (read_encodeMsg m _ (h m (by simp)))]
    rw [ih (fun x hx => h x (by simp [hx]))]

/-- C1: for every client text message of byte length `L`, the relay writes
upstream exactly `"Content-Length: L\r\n\r\n"` followed by the `L` original
bytes; and for every well-formed upstream message declaring length `L`, the
relay reads exactly `L` body bytes and forwards them downstream as one
message, body identical, header removed.  The final clause is the full
round trip over any message sequence. -/
theorem lsp_relay_round_trip (body rest : List Nat) (hutf : isValidUtf8 body = true) :
    forward_ws_to_lsp [WsEvent.text body] = contentLengthHeader body.length ++ body ∧
    read_lsp_message (contentLengthHeader body.length ++ (body ++ rest)) =
      some (body, rest) ∧
    forward_lsp_to_ws (encodeMsg body) = [body] ∧
    (∀ msgs : List (List Nat), (∀ m ∈ msgs, isValidUtf8 m = true) →
      forward_lsp_to_ws (forward_ws_to_lsp (msgs.map WsEvent.text)) = msgs) := by
  refine ⟨?_, ?_, ?_, ?_⟩
  · simp [forward_ws_to_lsp, encodeMsg]
  · have h := read_encodeMsg body rest hutf
    rwa [encodeMsg, List.append_assoc] at h
  · have h0 : read_lsp_message (encodeMsg body) = some (body, []) := by
      have h := read_encodeMsg body [] hutf
      rwa [List.append_nil] at h
    rw [forward_lsp_to_ws_of_read_some h0]
    rw [forward_lsp_to_ws_of_read_none (show read_lsp_message [] = none by rfl)]
  · intro msgs hall
    rw [forward_ws_map_text, forward_encode_flatten msgs hall]

/-- Witness for C1 with the two-byte message `"hi"` (`[104, 105]`). -/
theorem lsp_relay_round_trip_witness :
    isValidUtf8 [104, 105] = true ∧
    read_lsp_message (contentLengthHeader 2 ++ ([104, 105] ++ [])) =
      some ([104, 105], []) :=
  ⟨by decide, (lsp_relay_round_trip [104, 105] [] (by decide)).2.1⟩

/-- C7: an upstream header block that scans to `\r\n\r\n` but has no parseable
`Content-Length` makes `read_lsp_message` fail, which terminates that
connection's tool-to-client loop with no message forwarded for the frame;
any other connection, a pure function of its own stream, is unaffected. -/
theorem lsp_relay_bad_header (stream hdr rest : List Nat)
    (hscan : scanHeaders [] stream = some (hdr, rest))
    (hparse : parseContentLength hdr = none) :
    read_lsp_message stream = none ∧
    forward_lsp_to_ws stream = [] ∧
    (∀ other, relayConnections stream other = ([], forward_lsp_to_ws other)) := by
  have hread : read_lsp_message stream = none := by
    simp only [read_lsp_message, hscan, hparse]
  refine ⟨hread, forward_lsp_to_ws_of_read_none hread, ?_⟩
  intro other
  unfold relayConnections
  rw [forward_lsp_to_ws_of_read_none hread]

/-- Witness for C7 with the malformed frame `"X: 1\r\n\r\nbody"`. -/
theorem lsp_relay_bad_header_witness :
    read_lsp_message [88, 58, 32, 49, 13, 10, 13, 10, 98, 111, 100, 121] = none ∧
    forward_lsp_to_ws [88, 58, 32, 49, 13, 10, 13, 10, 98, 111, 100, 121] = [] :=
  ⟨(lsp_relay_bad_header _ [88, 58, 32, 49, 13, 10, 13, 10] [98, 111, 100, 121]
      (by decide) (by decide)).1,
   (lsp_relay_bad_header _ [88, 58, 32, 49, 13, 10, 13, 10] [98, 111, 100, 121]
      (by decide) (by decide)).2.1⟩

/-! ## UCM PTY reader loop (src/src-tauri/src/ucm_pty.rs, `UCMPtyManager::spawn`)

The reader thread's loop is modeled over a finite list of read results.
`std::str::from_utf8` is abstracted by the read result carrying either the
decoded text (`chunk`) or undecodable bytes (`invalidChunk`, which only emit
the raw-output event).  The buffer is the decoded text accumulated in
`line_buffer`. -/

/-- Rust `str::contains(substring)`. -/
def containsSeq (hay pat : List Char) : Bool :=
  hay.tails.any (fun t => pat.isPrefixOf t)

/-- The fixed lock-conflict sentinel scanned for in the buffer. -/
def lockSentinel : List Char := "Failed to obtain a file lock".toList

/-- One result of `reader.read(&mut buffer)`. -/
inductive PtyRead where
  | chunk (text : List Char)
  | invalidChunk (bytes : List Nat)
  | eof
  | readErr
  deriving Repr, DecidableEq

/-- Events emitted by the reader thread. -/
inductive PtyEvent where
  | outputText (text : List Char)
  | outputRaw (bytes : List Nat)
  | contextChanged (ctx : UCMContext)
  | lockError
  deriving Repr, DecidableEq

/-- Reader-loop state: the `running` flag, the trailing `line_buffer`, and the
last detected context. -/
structure PtyState where
  running : Bool
  lineBuffer : List Char
  ctx : UCMContext
  deriving Repr, DecidableEq

/-- `UCMPtyManager::is_running`. -/
def is_running (st : PtyState) : Bool := st.running

/-- The `line_buffer.len() > 1024` truncation keeping the last 512. -/
def bufferTruncate (buf : List Char) : List Char :=
  if buf.length > 1024 then buf.drop (buf.length - 512) else buf

/-- The reader thread's loop: emit the raw-output event first, then append
decoded text to the buffer; if the buffer contains the lock sentinel, mark
not running, emit the lock event and stop reading; otherwise detect a prompt
context (emitting a change event only when it differs), truncate the buffer,
and continue.  EOF and read errors break the loop. -/
def runReaderLoop (st : PtyState) : List PtyRead → PtyState × List PtyEvent
  | [] => (st, [])
  | r :: rest =>
    if st.running = false then (st, [])
    else
      match r with
      | .eof => (st, [])
      | .readErr => (st, [])
      | .invalidChunk bytes =>
        let res := runReaderLoop st rest
        (res.1, .outputRaw bytes :: res.2)
      | .chunk text =>
        let buf := st.lineBuffer ++ text
        if containsSeq buf lockSentinel then
          ({ st with running := false, lineBuffer := buf },
           [.outputText text, .lockError])
        else
          let step :=
            match parse_ucm_prompt buf with
            | some newCtx =>
              if st.ctx.project ≠ newCtx.project ∨ st.ctx.branch ≠ newCtx.branch then
                ({ st with ctx := newCtx, lineBuffer := buf }, [PtyEvent.contextChanged newCtx])
              else ({ st with lineBuffer := buf }, ([] : List PtyEvent))
            | none => ({ st with lineBuffer := buf }, ([] : List PtyEvent))
          let st2 := { step.1 with lineBuffer := bufferTruncate step.1.lineBuffer }
          let res := runReaderLoop st2 rest
          (res.1, .outputText text :: (step.2 ++ res.2))

/-- C8: whenever the accumulated buffer (after appending the freshly decoded
chunk) contains the lock-conflict sentinel, the loop marks the session not
running, emits the distinguished lock event, and performs no further reads:
`is_running` is false afterwards and the remaining reads are never
processed. -/
theorem lock_sentinel_stops_reader (st : PtyState) (text : List Char)
    (rest : List PtyRead) (hrun : st.running = true)
    (hsent : containsSeq (st.lineBuffer ++ text) lockSentinel = true) :
    runReaderLoop st (.chunk text :: rest) =
      ({ st with running := false, lineBuffer := st.lineBuffer ++ text },
       [.outputText text, .lockError]) ∧
    is_running (runReaderLoop st (.chunk text :: rest)).1 = false ∧
    (runReaderLoop st (.chunk text :: rest)).2.count PtyEvent.lockError = 1 ∧
    (∀ rest2, runReaderLoop st (.chunk text :: rest) =
      runReaderLoop st (.chunk text :: rest2)) := by
  have hgen : ∀ rest1 : List PtyRead, runReaderLoop st (.chunk text :: rest1) =
      ({ st with running := false, lineBuffer := st.lineBuffer ++ text },
       [.outputText text, .lockError]) := by
    intro rest1
    simp only [runReaderLoop]
    rw [if_neg (by simp [hrun]), if_pos hsent]
  refine ⟨hgen rest, ?_, ?_, fun rest2 => (hgen rest).trans (hgen rest2).symm⟩
  · rw [hgen rest]
    rfl
  · rw [hgen rest]
    rfl

/-- Witness for C8: a single read containing the sentinel kills the session
and emits exactly one lock event. -/
theorem lock_sentinel_stops_reader_witness :
    is_running (runReaderLoop ⟨true, [], ⟨none, none⟩⟩
      [.chunk "Failed to obtain a file lock".toList]).1 = false ∧
    (runReaderLoop ⟨true, [], ⟨none, none⟩⟩
      [.chunk "Failed to obtain a file lock".toList]).2.count PtyEvent.lockError = 1 := by
  have H := lock_sentinel_stops_reader ⟨true, [], ⟨none, none⟩⟩
    "Failed to obtain a file lock".toList [] rfl (by decide)
  exact ⟨H.2.1, H.2.2.1⟩

/-! ## MCP client (src/src-tauri/src/mcp_client.rs)

`serde_json::Value` is modeled by `Json`; `serde_json::from_str` by an
abstract decoding oracle `decode : List Char → Option Json` (the claims hold
for every oracle).  The four tool operations are embedded from the point
where the `tools/call` response is in hand (`let response = ...`); transport
failures of `call_tool` itself are outside the claims. -/

inductive Json where
  | null
  | bool (b : Bool)
  | num (n : Int)
  | str (s : List Char)
  | arr (elems : List Json)
  | obj (fields : List (List Char × Json))

/-- `Value::get(key)` on objects; `None` on other variants. -/
def Json.get : Json → List Char → Option Json
  | .obj fields, key => (fields.find? (fun p => p.1 == key)).map (fun p => p.2)
  | _, _ => none

/-- `Value::index` (`json["key"]`): missing keys and non-objects give
`Null`. -/
def Json.index (j : Json) (key : List Char) : Json :=
  (j.get key).getD .null

def Json.asStr : Json → Option (List Char)
  | .str s => some s
  | _ => none

def Json.asBool : Json → Option Bool
  | .bool b => some b
  | _ => none

def Json.asArr : Json → Option (List Json)
  | .arr xs => some xs
  | _ => none

/-- `error["message"].as_str().unwrap_or("Unknown error")`. -/
def errText (e : Json) : List Char :=
  ((e.index "message".toList).asStr).getD "Unknown error".toList

/-- `Vec::join(sep)` / `slice::join`. -/
def joinSep (sep : List Char) : List (List Char) → List Char
  | [] => []
  | [x] => x
  | x :: xs => x ++ sep ++ joinSep sep xs

/-- Decimal rendering of `n` as characters (`format!("{}", n)`). -/
def natDigitsC (n : Nat) : List Char := (natDigits n).map Char.ofNat

/-- The text extraction shared by all four operations:
`result["content"]` as an array, keeping each element's string `"text"`
field, joined with newlines; empty string if absent. -/
def extractRawOutput (result : Json) : List Char :=
  match (result.get "content".toList).bind Json.asArr with
  | some arr =>
    joinSep "\n".toList (arr.filterMap (fun item => (item.get "text".toList).bind Json.asStr))
  | none => []

/-- The `errorMessages` extraction shared by the parse functions: string
array elements, dropping empty strings. -/
def extractErrorMessages (json : Json) : List (List Char) :=
  (((json.get "errorMessages".toList).bind Json.asArr).getD []).filterMap
    (fun m => match m.asStr with
      | some s => if s ≠ [] then some s else none
      | none => none)

/-- `UpdateResult`. -/
structure UpdateResult where
  success : Bool
  output : List Char
  errors : List (List Char)
  deriving Repr, DecidableEq

/-- `TestResult`. -/
structure TestResult where
  name : List Char
  passed : Bool
  message : List Char
  deriving Repr, DecidableEq

/-- `WatchResult`. -/
structure WatchResult where
  expression : List Char
  result : List Char
  lineNumber : Nat
  deriving Repr, DecidableEq

/-- `TypecheckResult`. -/
structure TypecheckResult where
  success : Bool
  errors : List (List Char)
  watchResults : List WatchResult
  testResults : List TestResult
  output : List Char
  deriving Repr, DecidableEq

/-- `RunTestsResult`. -/
structure RunTestsResult where
  success : Bool
  output : List Char
  errors : List (List Char)
  testResults : List TestResult
  deriving Repr, DecidableEq

/-- `RunFunctionResult`. -/
structure RunFunctionResult where
  success : Bool
  stdout : List Char
  stderr : List Char
  output : List Char
  errors : List (List Char)
  deriving Repr, DecidableEq

/-- `parse_ucm_output`: two-tier parse of the update tool's embedded output;
returns `(output, errors)`. -/
def parse_ucm_output (decode : List Char → Option Json) (raw : List Char)
    (isErr : Bool) : List Char × List (List Char) :=
  match decode raw with
  | some json =>
    let errors := extractErrorMessages json
    let outMsgs := (((json.get "outputMessages".toList).bind Json.asArr).getD []).filterMap
      (fun m => match m.asStr with
        | some s =>
          if s ≠ [] ∧ containsSeq s "Loading changes detected".toList = false ∧
              s ≠ "Done.".toList
          then some s else none
        | none => none)
    let updMsgs :=
      match (json.get "sourceCodeUpdates".toList).bind Json.asArr with
      | some updates =>
        if updates.isEmpty then []
        else
          ["Updated ".toList ++ natDigitsC updates.length ++ " definition".toList ++
            (if updates.length = 1 then [] else "s".toList)]
      | none => []
    let messages := outMsgs ++ updMsgs
    if errors ≠ [] then (joinSep "\n".toList errors, errors)
    else if messages = [] then
      (if isErr then ("Update failed".toList, ["Update failed".toList])
       else ("Saved to codebase".toList, []))
    else (joinSep ". ".toList messages, [])
  | none =>
    if isErr then (raw, [raw]) else (raw, [])

/-- `update_definitions`: response handling from the parsed `tools/call`
response onward. -/
def update_definitions (decode : List Char → Option Json) (response : Json) :
    Except (List Char) UpdateResult :=
  match response.get "error".toList with
  | some e => .ok ⟨false, [], [errText e]⟩
  | none =>
    match response.get "result".toList with
    | some result =>
      let isErr := ((result.get "isError".toList).bind Json.asBool).getD false
      let pr := parse_ucm_output decode (extractRawOutput result) isErr
      if isErr ∨ pr.2 ≠ [] then .ok ⟨false, pr.1, pr.2⟩
      else .ok ⟨true, pr.1, []⟩
    | none => .error "Invalid MCP response: missing result".toList

/-! ### Typecheck output parsing (`parse_typecheck_output`) -/

/-- Rust `str::find(pattern)`: char index of the first occurrence of `pat`. -/
def findSubstrIdx (pat : List Char) : List Char → Option Nat
  | [] => if pat = [] then some 0 else none
  | c :: t =>
    if pat.isPrefixOf (c :: t) then some 0
    else (findSubstrIdx pat t).map (· + 1)

/-- The test-name extraction of the `" | test>"` branch: everything after
`"test>"`, trimmed, split at `=`, first piece trimmed; `none` when empty. -/
def extractTestName (s : List Char) : Option (List Char) :=
  match findSubstrIdx "test>".toList s with
  | some idx =>
    let afterTest := rustTrim (s.drop (idx + 5))
    let name := rustTrim ((splitSep '=' afterTest).headD [])
    if name ≠ [] then some name else none
  | none => none

/-- Rust `splitn(2, sep)` for a char separator. -/
def splitN2 (sep : Char) (s : List Char) : List (List Char) :=
  match ffindIdx s sep with
  | some i => [s.take i, s.drop (i + 1)]
  | none => [s]

/-- `usize::from_str` on characters (for watch line numbers). -/
def parseDigitsGoC (acc : Nat) : List Char → Option Nat
  | [] => some acc
  | c :: cs =>
    if '0' ≤ c ∧ c ≤ '9' then parseDigitsGoC (acc * 10 + (c.toNat - 48)) cs
    else none

def parseUsizeC : List Char → Option Nat
  | [] => none
  | c :: rest =>
    if c = '+' then (if rest = [] then none else parseDigitsGoC 0 rest)
    else parseDigitsGoC 0 (c :: rest)

/-- State of the second-pass line scan of `parse_typecheck_output`. -/
structure TCState where
  pendingTest : Option (List Char)
  pendingWatch : Option (Nat × List Char)
  testResults : List TestResult
  watchResults : List WatchResult
  deriving Repr, DecidableEq

/-- One iteration of the `for line in &all_lines` loop of
`parse_typecheck_output`: test definition lines set the pending test name;
pass/fail glyph lines consume it into a `TestResult`, deduplicated by name;
watch-expression lines set the pending watch, whose result is taken from the
next plain line. -/
def tcStep (st : TCState) (s : List Char) : TCState :=
  if containsSeq s " | test>".toList then
    match extractTestName s with
    | some name => { st with pendingTest := some name }
    | none => st
  else if (containsSeq s "✅".toList || containsSeq s "◉".toList) &&
      containsSeq s "Passed".toList then
    let name := st.pendingTest.getD "test".toList
    if st.testResults.any (fun t => t.name == name) then { st with pendingTest := none }
    else
      { st with
        pendingTest := none
        testResults := st.testResults ++ [⟨name, true, "Passed".toList⟩] }
  else if containsSeq s "🚫".toList ||
      (containsSeq s "FAILED".toList && !containsSeq s "0 failed".toList) then
    let name := st.pendingTest.getD "test".toList
    if st.testResults.any (fun t => t.name == name) then { st with pendingTest := none }
    else
      { st with
        pendingTest := none
        testResults := st.testResults ++ [⟨name, false, s⟩] }
  else if containsSeq s " | ".toList && containsSeq s "> ".toList &&
      !containsSeq s "test>".toList then
    let parts := splitN2 '|' s
    if parts.length = 2 then
      let lineNum := (parseUsizeC (rustTrim (parts.headD []))).getD 0
      let exprPart := rustTrim (parts.getD 1 [])
      let expression :=
        if ("> ".toList).isPrefixOf exprPart then exprPart.drop 2
        else if (">".toList).isPrefixOf exprPart then rustTrim (exprPart.drop 1)
        else []
      if lineNum > 0 ∧ expression ≠ [] then { st with pendingWatch := some (lineNum, expression) }
      else st
    else st
  else if s.contains '⧩' then st
  else
    match st.pendingWatch with
    | some (ln, expr) =>
      let resultVal := rustTrim s
      if resultVal ≠ [] ∧ !containsSeq resultVal " | ".toList then
        if st.watchResults.any (fun w => w.lineNumber == ln) then
          { st with pendingWatch := none }
        else
          { st with
            pendingWatch := none
            watchResults := st.watchResults ++ [⟨expr, resultVal, ln⟩] }
      else st
    | none => st

/-- The second pass of `parse_typecheck_output` over the collected lines. -/
def parseTypecheckLines (lines : List (List Char)) : TCState :=
  lines.foldl tcStep ⟨none, none, [], []⟩

/-- The string elements of `json["outputMessages"]`. -/
def outputMessagesOf (json : Json) : List (List Char) :=
  (((json.get "outputMessages".toList).bind Json.asArr).getD []).filterMap Json.asStr

/-- `parse_typecheck_output`: returns
`(output, errors, watch_results, test_results)`. -/
def parse_typecheck_output (decode : List Char → Option Json) (raw : List Char)
    (isErr : Bool) :
    List Char × List (List Char) × List WatchResult × List TestResult :=
  match decode raw with
  | some json =>
    let errors := extractErrorMessages json
    let allLines := ((outputMessagesOf json).map (rustLines '\n' '\r')).flatten
    let st := parseTypecheckLines allLines
    let messages : List (List Char) := []
    if errors ≠ [] then (joinSep "\n".toList errors, errors, st.watchResults, st.testResults)
    else
      let output :=
        if st.testResults ≠ [] then
          joinSep "\n".toList (st.testResults.map (fun t =>
            if t.passed then "✅ ".toList ++ t.name
            else "🚫 ".toList ++ t.name ++ "\n".toList ++ t.message))
        else if st.watchResults ≠ [] then
          joinSep "\n\n".toList (st.watchResults.map (fun w =>
            "> ".toList ++ w.expression ++ "\n⇒ ".toList ++ w.result))
        else if messages ≠ [] then joinSep "\n".toList messages
        else "Code typechecks successfully".toList
      (output, [], st.watchResults, st.testResults)
  | none =>
    if isErr then (raw, [raw], [], []) else (raw, [], [], [])

/-- `typecheck_code`: response handling from the parsed `tools/call` response
onward. -/
def typecheck_code (decode : List Char → Option Json) (response : Json) :
    Except (List Char) TypecheckResult :=
  match response.get "error".toList with
  | some e => .ok ⟨false, [errText e], [], [], []⟩
  | none =>
    match response.get "result".toList with
    | some result =>
      let isErr := ((result.get "isError".toList).bind Json.asBool).getD false
      let pr := parse_typecheck_output decode (extractRawOutput result) isErr
      .ok ⟨!isErr && pr.2.1.isEmpty, pr.2.1, pr.2.2.1, pr.2.2.2, pr.1⟩
    | none => .error "Invalid MCP response: missing result".toList

/-! ### Run-tests output parsing (`parse_run_tests_output`) -/

/-- `split(pattern).next()`: the part of `s` before the first occurrence of
`pat` (all of `s` if absent). -/
def takeBeforeSub (pat s : List Char) : List Char :=
  match findSubstrIdx pat s with
  | some i => s.take i
  | none => s

/-- `parse_run_tests_line`: strip an `"N. "` prefix, take the name up to a
`✓`/`✗` glyph or a `passing`/`failing` word, trim; `None` if empty. -/
def parse_run_tests_line (line : List Char) (passed : Bool) : Option TestResult :=
  let trimmed := rustTrim line
  match trimmed.head? with
  | none => none
  | some c0 =>
    let withoutNumber :=
      if c0.isDigit then
        match findSubstrIdx ". ".toList trimmed with
        | some i => trimmed.drop (i + 2)
        | none => trimmed
      else trimmed
    let name := rustTrim (takeBeforeSub "failing".toList (takeBeforeSub "passing".toList
      (withoutNumber.takeWhile (fun c => ¬(c = '✓' ∨ c = '✗')))))
    if name = [] then none
    else some ⟨name, passed, if passed then "Passed".toList else "Failed".toList⟩

/-- The per-message classification loop of `parse_run_tests_output` (JSON
branch), accumulating `(test_results, messages)`. -/
def runTestsScan (msgs : List (List Char)) : List TestResult × List (List Char) :=
  msgs.foldl (fun acc s =>
    if containsSeq s "✓".toList || containsSeq s "passing".toList then
      match parse_run_tests_line s true with
      | some t => (acc.1 ++ [t], acc.2)
      | none => acc
    else if containsSeq s "✗".toList || containsSeq s "failing".toList then
      match parse_run_tests_line s false with
      | some t => (acc.1 ++ [t], acc.2)
      | none => acc
    else if s ≠ [] ∧ ¬containsSeq s "Loading".toList ∧ s ≠ "Done.".toList then
      (acc.1, acc.2 ++ [s])
    else acc) ([], [])

/-- The plain-text fallback loop of `parse_run_tests_output`. -/
def runTestsScanPlain (lines : List (List Char)) : List TestResult :=
  lines.foldl (fun acc line =>
    let trimmed := rustTrim line
    if containsSeq trimmed "✓".toList || containsSeq trimmed "passing".toList then
      match parse_run_tests_line trimmed true with
      | some t => acc ++ [t]
      | none => acc
    else if containsSeq trimmed "✗".toList || containsSeq trimmed "failing".toList then
      match parse_run_tests_line trimmed false with
      | some t => acc ++ [t]
      | none => acc
    else acc) []

/-- `parse_run_tests_output`: returns `(output, errors, test_results)`. -/
def parse_run_tests_output (decode : List Char → Option Json) (raw : List Char)
    (isErr : Bool) : List Char × List (List Char) × List TestResult :=
  match decode raw with
  | some json =>
    let errors := extractErrorMessages json
    let scan := runTestsScan (outputMessagesOf json)
    if errors ≠ [] then (joinSep "\n".toList errors, errors, scan.1)
    else
      let output :=
        if scan.1 ≠ [] then
          joinSep "\n".toList (scan.1.map (fun t =>
            if t.passed then "✅ ".toList ++ t.name ++ " - Passed".toList
            else "🚫 ".toList ++ t.name ++ " - FAILED\n".toList ++ t.message))
        else if scan.2 ≠ [] then joinSep "\n".toList scan.2
        else "No tests found".toList
      (output, [], scan.1)
  | none =>
    let testResults := runTestsScanPlain (rustLines '\n' '\r' raw)
    if testResults ≠ [] then
      (joinSep "\n".toList (testResults.map (fun t =>
        if t.passed then "✅ ".toList ++ t.name ++ " - Passed".toList
        else "🚫 ".toList ++ t.name ++ " - FAILED".toList)), [], testResults)
    else if isErr then (raw, [raw], [])
    else (raw, [], [])

/-- `run_tests`: response handling from the parsed `tools/call` response
onward. -/
def run_tests (decode : List Char → Option Json) (response : Json) :
    Except (List Char) RunTestsResult :=
  match response.get "error".toList with
  | some e => .ok ⟨false, [], [errText e], []⟩
  | none =>
    match response.get "result".toList with
    | some result =>
      let isErr := ((result.get "isError".toList).bind Json.asBool).getD false
      let pr := parse_run_tests_output decode (extractRawOutput result) isErr
      .ok ⟨!isErr && pr.2.1.isEmpty, pr.1, pr.2.1, pr.2.2⟩
    | none => .error "Invalid MCP response: missing result".toList

/-! ### Run-function output parsing (`parse_run_function_output`) -/

/-- `parse_run_function_output`: returns `(stdout, stderr, output, errors)`. -/
def parse_run_function_output (decode : List Char → Option Json) (raw : List Char)
    (isErr : Bool) :
    List Char × List Char × List Char × List (List Char) :=
  match decode raw with
  | some json =>
    let stdout := ((json.get "stdout".toList).bind Json.asStr).getD []
    let stderr := ((json.get "stderr".toList).bind Json.asStr).getD []
    let errors := extractErrorMessages json
    let outMsgs := (((json.get "outputMessages".toList).bind Json.asArr).getD []).filterMap
      (fun m => match m.asStr with
        | some s =>
          if s ≠ [] ∧ ¬containsSeq s "Loading".toList ∧ s ≠ "Done.".toList
          then some s else none
        | none => none)
    let output :=
      if stdout ≠ [] then stdout
      else if outMsgs ≠ [] then joinSep "\n".toList outMsgs
      else "Function executed successfully".toList
    (stdout, stderr, output, errors)
  | none =>
    if isErr then ([], raw, raw, [raw])
    else (raw, [], raw, [])

/-- `run_function`: response handling from the parsed `tools/call` response
onward. -/
def run_function (decode : List Char → Option Json) (response : Json) :
    Except (List Char) RunFunctionResult :=
  match response.get "error".toList with
  | some e => .ok ⟨false, [], [], [], [errText e]⟩
  | none =>
    match response.get "result".toList with
    | some result =>
      let isErr := ((result.get "isError".toList).bind Json.asBool).getD false
      let pr := parse_run_function_output decode (extractRawOutput result) isErr
      .ok ⟨!isErr && pr.2.2.2.isEmpty, pr.1, pr.2.1, pr.2.2.1, pr.2.2.2⟩
    | none => .error "Invalid MCP response: missing result".toList

/-! ### Lemmas about the typecheck line scan (for the dedup claim) -/

/-- Each scan step only appends to the collected test results. -/
theorem tcStep_testResults_extend (st : TCState) (s : List Char) :
    ∃ tail, (tcStep st s).testResults = st.testResults ++ tail := by
  unfold tcStep
  dsimp only []
  repeat' split
  all_goals first
    | exact ⟨_, rfl⟩
    | exact ⟨[], by simp⟩

theorem foldl_testResults_extend (lines : List (List Char)) :
    ∀ st : TCState, ∃ tail,
      (lines.foldl tcStep st).testResults = st.testResults ++ tail := by
  induction lines with
  | nil => intro st; exact ⟨[], by simp⟩
  | cons l ls ih =>
    intro st
    obtain ⟨t1, h1⟩ := tcStep_testResults_extend st l
    obtain ⟨t2, h2⟩ := ih (tcStep st l)
    exact ⟨t1 ++ t2, by simp only [List.foldl_cons, h2, h1, List.append_assoc]⟩

/-- A name present among the results stays present. -/
theorem foldl_testResults_mem {lines : List (List Char)} {st : TCState}
    {X : List Char} (h : X ∈ st.testResults.map TestResult.name) :
    X ∈ (lines.foldl tcStep st).testResults.map TestResult.name := by
  obtain ⟨tail, ht⟩ := foldl_testResults_extend lines st
  rw [ht, List.map_append, List.mem_append]
  exact Or.inl h

/-- The dedup guard: a step never introduces a duplicate test name. -/
theorem tcStep_names_nodup (st : TCState) (s : List Char)
    (h : (st.testResults.map TestResult.name).Nodup) :
    ((tcStep st s).testResults.map TestResult.name).Nodup := by
  have key : ∀ (name : List Char) (passed : Bool) (msg : List Char),
      st.testResults.any (fun t => t.name == name) = false →
      ((st.testResults ++ [TestResult.mk name passed msg]).map TestResult.name).Nodup := by
    intro name passed msg hany
    rw [List.map_append]
    have hnot : name ∉ st.testResults.map TestResult.name := by
      intro hmem
      rw [List.mem_map] at hmem
      obtain ⟨t, htmem, htname⟩ := hmem
      rw [List.any_eq_false] at hany
      exact hany t htmem (by simp [htname])
    have hcc := List.Nodup.concat hnot h
    rw [List.concat_eq_append] at hcc
    simpa using hcc
  unfold tcStep
  dsimp only []
  repeat' split
  all_goals first
    | exact h
    | (next hguard =>
        exact key _ _ _ (by
          rw [Bool.eq_false_iff]
          intro hc
          exact hguard hc))

/-- Nodup of result names holds for the whole scan. -/
theorem foldl_names_nodup (lines : List (List Char)) :
    ∀ st : TCState, (st.testResults.map TestResult.name).Nodup →
      ((lines.foldl tcStep st).testResults.map TestResult.name).Nodup := by
  induction lines with
  | nil => intro st h; exact h
  | cons l ls ih =>
    intro st h
    exact ih (tcStep st l) (tcStep_names_nodup st l h)

/-- Processing a test-definition line followed by a pass-glyph line puts the
test's name among the results. -/
theorem tcStep_pair_mem (st : TCState) (dLine gLine X : List Char)
    (hd1 : containsSeq dLine " | test>".toList = true)
    (hd2 : extractTestName dLine = some X)
    (hg1 : containsSeq gLine " | test>".toList = false)
    (hg2 : ((containsSeq gLine "✅".toList || containsSeq gLine "◉".toList) &&
        containsSeq gLine "Passed".toList) = true) :
    X ∈ (tcStep (tcStep st dLine) gLine).testResults.map TestResult.name := by
  have hstep1 : tcStep st dLine = { st with pendingTest := some X } := by
    unfold tcStep
    rw [if_pos hd1, hd2]
  rw [hstep1]
  unfold tcStep
  dsimp only []
  simp only [hg1, hg2, Bool.false_eq_true, eq_self_iff_true, if_false, if_true,
    Option.getD_some]
  split
  · next hany =>
    rw [List.any_eq_true] at hany
    obtain ⟨t, htmem, htx⟩ := hany
    rw [beq_iff_eq] at htx
    exact List.mem_map.mpr ⟨t, htmem, htx⟩
  · simp

/-- Membership plus name-nodup forces exactly one entry with that name. -/
theorem filter_name_length_one :
    ∀ (l : List TestResult) (X : List Char),
      X ∈ l.map TestResult.name → (l.map TestResult.name).Nodup →
      (l.filter (fun t => t.name == X)).length = 1 := by
  intro l
  induction l with
  | nil => intro X h _; simp at h
  | cons t ts ih =>
    intro X hmem hnd
    rw [List.map_cons, List.nodup_cons] at hnd
    rw [List.filter_cons]
    by_cases hx : t.name = X
    · rw [if_pos (by simp [hx])]
      have hempty : ts.filter (fun t => t.name == X) = [] := by
        rw [List.filter_eq_nil_iff]
        intro a ha
        simp only [beq_iff_eq]
        intro hc
        apply hnd.1
        rw [hx, ← hc]
        exact List.mem_map.mpr ⟨a, ha, rfl⟩
      rw [hempty]
      rfl
    · rw [if_neg (by simp [hx])]
      have hmem2 : X ∈ ts.map TestResult.name := by
        rw [List.map_cons] at hmem
        rcases List.mem_cons.mp hmem with h | h
        · exact absurd h.symm hx
        · exact h
      exact ih X hmem2 hnd.2

/-- C6: whenever a test's pass marker (definition line then pass-glyph line)
occurs in the scanned lines — in particular when it occurs twice — the parsed
results contain exactly one `TestResult` with that test's name
(deduplication by name). -/
theorem typecheck_test_dedup (pre post : List (List Char)) (dLine gLine X : List Char)
    (hd1 : containsSeq dLine " | test>".toList = true)
    (hd2 : extractTestName dLine = some X)
    (hg1 : containsSeq gLine " | test>".toList = false)
    (hg2 : ((containsSeq gLine "✅".toList || containsSeq gLine "◉".toList) &&
        containsSeq gLine "Passed".toList) = true) :
    ((parseTypecheckLines (pre ++ dLine :: gLine :: post)).testResults.filter
      (fun t => t.name == X)).length = 1 := by
  unfold parseTypecheckLines
  rw [List.foldl_append]
  have hmem : X ∈ ((dLine :: gLine :: post).foldl tcStep
      (pre.foldl tcStep ⟨none, none, [], []⟩)).testResults.map TestResult.name := by
    simp only [List.foldl_cons]
    exact foldl_testResults_mem
      (tcStep_pair_mem (pre.foldl tcStep ⟨none, none, [], []⟩) dLine gLine X hd1 hd2 hg1 hg2)
  have hnd : (((dLine :: gLine :: post).foldl tcStep
      (pre.foldl tcStep ⟨none, none, [], []⟩)).testResults.map TestResult.name).Nodup := by
    apply foldl_names_nodup
    apply foldl_names_nodup
    simp
  exact filter_name_length_one _ X hmem hnd

/-- Witness for C6: the same pass marker appearing twice still yields exactly
one result named `square.tests.ex1`. -/
theorem typecheck_test_dedup_witness :
    ((parseTypecheckLines
        ["  4 | test> square.tests.ex1 = check (...)".toList,
         "✅ Passed Passed (cached)".toList,
         "  4 | test> square.tests.ex1 = check (...)".toList,
         "✅ Passed Passed (cached)".toList]).testResults.filter
      (fun t => t.name == "square.tests.ex1".toList)).length = 1 :=
  typecheck_test_dedup []
    ["  4 | test> square.tests.ex1 = check (...)".toList,
     "✅ Passed Passed (cached)".toList]
    "  4 | test> square.tests.ex1 = check (...)".toList
    "✅ Passed Passed (cached)".toList
    "square.tests.ex1".toList
    (by decide) (by decide) (by decide) (by decide)

/-! ### Tool-level error handling (C5) -/

/-- A `tools/call` response carrying a tool-level error: an explicit `error`
object, or an `isError: true` flag inside `result`. -/
def toolLevelError (response : Json) : Prop :=
  (∃ e, response.get "error".toList = some e) ∨
  (response.get "error".toList = none ∧
    ∃ res, response.get "result".toList = some res ∧
      (res.get "isError".toList).bind Json.asBool = some true)

/-- C5 (amended): for every response with a tool-level error, each of the
four operations returns `Ok` with `success = false` (never a thrown `Err`);
in the explicit-error case, the error message text is the errors list. -/
theorem mcp_tool_error_structured (decode : List Char → Option Json)
    (response : Json) (h : toolLevelError response) :
    (∃ u, update_definitions decode response = .ok u ∧ u.success = false) ∧
    (∃ t, typecheck_code decode response = .ok t ∧ t.success = false) ∧
    (∃ r, run_tests decode response = .ok r ∧ r.success = false) ∧
    (∃ f, run_function decode response = .ok f ∧ f.success = false) ∧
    (∀ e, response.get "error".toList = some e →
      update_definitions decode response = .ok ⟨false, [], [errText e]⟩ ∧
      typecheck_code decode response = .ok ⟨false, [errText e], [], [], []⟩ ∧
      run_tests decode response = .ok ⟨false, [], [errText e], []⟩ ∧
      run_function decode response = .ok ⟨false, [], [], [], [errText e]⟩) := by
  rcases h with ⟨e, he⟩ | ⟨hnone, res, hres, hisb⟩
  · refine ⟨⟨⟨false, [], [errText e]⟩, by simp only [update_definitions, he], rfl⟩,
      ⟨⟨false, [errText e], [], [], []⟩, by simp only [typecheck_code, he], rfl⟩,
      ⟨⟨false, [], [errText e], []⟩, by simp only [run_tests, he], rfl⟩,
      ⟨⟨false, [], [], [], [errText e]⟩, by simp only [run_function, he], rfl⟩, ?_⟩
    intro e2 he2
    rw [he] at he2
    obtain rfl : e = e2 := by injection he2
    exact ⟨by simp only [update_definitions, he],
      by simp only [typecheck_code, he],
      by simp only [run_tests, he],
      by simp only [run_function, he]⟩
  · have hgetd : ((res.get "isError".toList).bind Json.asBool).getD false = true := by
      rw [hisb]
      rfl
    refine ⟨?_, ?_, ?_, ?_, ?_⟩
    · simp only [update_definitions, hnone, hres]
      rw [hgetd]
      split
      · exact ⟨_, rfl, rfl⟩
      · next hcond => exact absurd (Or.inl rfl) hcond
    · simp only [typecheck_code, hnone, hres]
      rw [hgetd]
      exact ⟨_, rfl, by simp⟩
    · simp only [run_tests, hnone, hres]
      rw [hgetd]
      exact ⟨_, rfl, by simp⟩
    · simp only [run_function, hnone, hres]
      rw [hgetd]
      exact ⟨_, rfl, by simp⟩
    · intro e2 he2
      rw [hnone] at he2
      exact absurd he2 (by simp)

/-- A concrete explicit-error response (`{"error": {"message": "boom"}}`). -/
def responseWithError : Json :=
  .obj [("error".toList, .obj [("message".toList, .str "boom".toList)])]

/-- Witness for the amended C5: the explicit error "boom" surfaces as a typed
failure with the message in the errors list, for update and run-tests. -/
theorem mcp_tool_error_structured_witness :
    update_definitions (fun _ => none) responseWithError =
      .ok ⟨false, [], ["boom".toList]⟩ ∧
    run_tests (fun _ => none) responseWithError =
      .ok ⟨false, [], ["boom".toList], []⟩ := by
  obtain ⟨h1, h2, h3, h4⟩ :=
    (mcp_tool_error_structured (fun _ => none) responseWithError
      (Or.inl ⟨_, rfl⟩)).2.2.2.2
      (.obj [("message".toList, .str "boom".toList)]) rfl
  exact ⟨h1, h3⟩

/-- Decoder fragment for the counterexample: the tool's embedded output
`{"outputMessages":["All good"]}` parses to the corresponding object (as
`serde_json::from_str` would). -/
def decodeCx : List Char → Option Json := fun s =>
  if s = "\x7b\"outputMessages\":[\"All good\"]\x7d".toList then
    some (.obj [("outputMessages".toList, .arr [.str "All good".toList])])
  else none

/-- A response with `isError: true` whose content is JSON that carries only
output messages and no error messages. -/
def responseCx : Json :=
  .obj [("result".toList, .obj
    [("isError".toList, .bool true),
     ("content".toList, .arr [.obj [("text".toList,
       .str "\x7b\"outputMessages\":[\"All good\"]\x7d".toList)]])])]

/-- C5 counterexample: with the `isError` flag set but parseable JSON output
containing only an output message, `update_definitions` returns
`success = false` with an **empty** errors list — the claim's "the error text
in its errors list" fails. -/
theorem mcp_isError_empty_errors_counterexample :
    update_definitions decodeCx responseCx = .ok ⟨false, "All good".toList, []⟩ := by
  rfl

end UnisonEditor
